import Mathlib

/-!
Shallow embedding of the influxql query engine (`influxql/engine.go`) and
proofs about it.  Go `float64` values are modelled as exact rationals where
arithmetic matters and as integers where only order or counting matters;
machine-integer overflow is made explicit with `% 2 ^ 64` where it matters
(the FNV hash).  Go channels deliver one singleton batch per `Emitter.Emit`
call, so a processor's output stream is modelled as the list of records it
emits, in order.  Go panics are modelled as `Except.error` / an explicit
panic field.  Fuel parameters make the Go `for` loops structurally
recursive; a `Bool` result distinguishes "loop exited via its break
condition" from "fuel ran out".
-/

namespace Engine

/-- Insertion sort over a boolean comparator.  Models the Go `sort` package:
`sort.Sort(x)` rearranges `x` into an order where `le` holds pairwise
(`le a b = !Less(b, a)` for the `sort.Interface`'s `Less`); for the total,
transitive comparators used in the engine any comparison sort produces such
an order, so insertion sort is a faithful model of the result. -/
def insertLe {α : Type} (le : α → α → Bool) (x : α) : List α → List α
  | [] => [x]
  | y :: ys => if le x y then x :: y :: ys else y :: insertLe le x ys

/-- Full insertion sort, see `insertLe`. -/
def sortLe {α : Type} (le : α → α → Bool) : List α → List α
  | [] => []
  | x :: xs => insertLe le x (sortLe le xs)

/-- Dynamic value flowing between processors: models a Go interface value.
`nilv` is the zero value of an interface (what a Go map lookup returns for a
missing key); `num` is a `float64` (modelled as an exact rational);
`str` is a `string`. -/
inductive Val : Type
  | nilv : Val
  | num : Rat → Val
  | str : String → Val
deriving DecidableEq

/-- Arithmetic operator tokens accepted by `binaryExprEvaluator.eval`
(engine.go:1145-1163); `otherTok` stands for every other `influxql.Token`. -/
inductive Tok : Type
  | ADD | SUB | MUL | DIV | otherTok
deriving DecidableEq

/-- Go type assertion `v.(float64)`: returns the number or panics
(engine.go uses this inside `eval`).  The panic is an `Except.error`. -/
def asNum : Val → Except String Rat
  | .num q => .ok q
  | _ => .error "interface conversion: interface is not float64"

/-- Model of `binaryExprEvaluator.eval` (engine.go:1145-1163).  Operands are
type-asserted to `float64` left to right; for `DIV` the right operand is
asserted first and a zero divisor short-circuits to `0` before the left
operand is ever inspected. -/
def evalOp (op : Tok) (lhs rhs : Val) : Except String Val :=
  match op with
  | .ADD => do let a ← asNum lhs; let b ← asNum rhs; .ok (.num (a + b))
  | .SUB => do let a ← asNum lhs; let b ← asNum rhs; .ok (.num (a - b))
  | .MUL => do let a ← asNum lhs; let b ← asNum rhs; .ok (.num (a * b))
  | .DIV => do
      let b ← asNum rhs
      if b = 0 then .ok (.num 0)
      else do let a ← asNum lhs; .ok (.num (a / b))
  | .otherTok => .error "invalid operation"

/-- Grouping key emitted by mappers and reducers (engine.go:1214-1218). -/
structure GoKey : Type where
  timestamp : Int
  values : String
deriving DecidableEq

/-- One merge step of `binaryExprEvaluator.run` (engine.go:1109-1142): one
batch `lhs` and one batch `rhs` have been read and are merged key-wise.
Go maps are modelled as association lists with distinct keys; iteration
order only affects which panic fires first, never success values.  A missing
key lookup `rhs[k]` yields the interface zero value `nilv`, exactly as in
Go. -/
def mergeBatches (op : Tok) (lhs rhs : List (GoKey × Val)) :
    Except String (List (GoKey × Val)) := do
  let m ← lhs.foldlM
    (fun m kv => do
      let v ← evalOp op kv.2 (((rhs.lookup kv.1).getD .nilv))
      pure (m ++ [(kv.1, v)]))
    ([] : List (GoKey × Val))
  rhs.foldlM
    (fun m kv =>
      if (m.lookup kv.1).isSome then pure m
      else do
        let v ← evalOp op (.num 0) kv.2
        pure (m ++ [(kv.1, v)]))
    m

/-- Index computed by `ReducePercentile` (engine.go:1021):
`int(math.Floor(float64(length)*percentile/100.0+0.5)) - 1`, with the
`float64` arithmetic modelled exactly over the rationals. -/
def percentileIndex (percentile : Rat) (length : Nat) : Int :=
  ⌊(length : Rat) * percentile / 100 + 1 / 2⌋ - 1

/-- Comparator of `sort.Float64s` (ascending). -/
def ratLe (a b : Rat) : Bool := decide (a ≤ b)

/-- Model of the closure returned by `ReducePercentile` (engine.go:1008-1029)
applied to the intermediate values of one key: the list-of-lists is
flattened, sorted ascending, and indexed.  The result is the list of values
emitted for the key together with an optional panic: when the index is out
of range the code emits `0.0` but does not return, so the following
`allValues[index]` access panics. -/
def ReducePercentile (percentile : Rat) (values : List (List Rat)) :
    List Rat × Option String :=
  let allValues := sortLe ratLe (values.foldl (· ++ ·) [])
  let length : Int := (allValues.length : Int)
  let index : Int := percentileIndex percentile allValues.length
  if index < 0 ∨ length ≤ index then
    ([0], some "runtime error: index out of range")
  else
    ([allValues.getD index.toNat 0], none)

/-- One record on a reducer input channel: a mapper `Emit` sends the
singleton batch holding exactly this key-value pair
(engine.go:1247, 674-679).  Values are opaque to the merge loop and
modelled as integers. -/
abbrev RRecord : Type := GoKey × Int

/-- Timestamp selection of `Reducer.run` (engine.go:598-608): the heads of
all input channels are peeked and folded with
`if timestamp == 0 || rec.Key.Timestamp < timestamp`.  The `0` initial
value doubles as an "unset" sentinel. -/
def tickTimestamp (heads : List (Option RRecord)) : Int :=
  heads.foldl
    (fun ts h =>
      match h with
      | none => ts
      | some rec => if ts = 0 ∨ rec.1.timestamp < ts then rec.1.timestamp else ts)
    0

/-- The Go statement `data[rec.Key] = append(data[rec.Key], rec.Value)`
on an association-list model of the map. -/
def addRec (data : List (GoKey × List Int)) (k : GoKey) (v : Int) :
    List (GoKey × List Int) :=
  match data with
  | [] => [(k, [v])]
  | (k', vs) :: rest =>
      if k' = k then (k', vs ++ [v]) :: rest else (k', vs) :: addRec rest k v

/-- Comparator `keySlice.Less` (engine.go:1223-1225), verbatim:
`p[i].Timestamp < p[j].Timestamp || p[i].Values < p[j].Values`. -/
def keySliceLess (a b : GoKey) : Bool :=
  decide (a.timestamp < b.timestamp) || decide (a.values < b.values)

/-- Sorting and reducing one tick's grouping table (engine.go:631-641):
keys are collected, sorted with `keySliceLess`, and the reduce function is
invoked per key with the values accumulated for it.  The model returns the
`(key, values)` arguments of those invocations in order. -/
def reduceTick (data : List (GoKey × List Int)) : List (GoKey × List Int) :=
  (sortLe (fun a b => !(keySliceLess b a)) (data.map (·.1))).map
    (fun k => (k, ((data.lookup k).getD [])))

/-- Merge loop of `Reducer.run` (engine.go:586-643).  Each input channel is
modelled as the list of records it will deliver (a closed channel delivers
`nil` records forever, i.e. the empty list).  Each iteration picks the tick
timestamp via `tickTimestamp`, drains records equal to it from every input
(`read` stops and pushes back at the first mismatch), groups them, and
stops when nothing was drained.  One fuel unit per tick. -/
def reducerRun (fuel : Nat) (inputs : List (List RRecord)) :
    List (List (GoKey × List Int)) :=
  match fuel with
  | 0 => []
  | fuel + 1 =>
      let ts := tickTimestamp (inputs.map List.head?)
      let drained := inputs.map (fun inp => inp.takeWhile (fun r => r.1.timestamp = ts))
      let rests := inputs.map (fun inp => inp.dropWhile (fun r => r.1.timestamp = ts))
      let data := drained.flatten.foldl (fun d r => addRec d r.1 r.2) []
      if data.isEmpty then []
      else reduceTick data :: reducerRun fuel rests

/-- One point delivered by a storage `Iterator` (timestamp plus an opaque
`float64` payload, modelled as an integer; the mapper windowing never
computes with the payload). -/
structure Pt : Type where
  ts : Int
  val : Int
deriving DecidableEq

/-- State of `bufIterator` (engine.go:467-478) plus its underlying iterator:
`rem` is what the source iterator will still yield (the Go iterator returns
the sentinel key `0` forever once exhausted), `bufKey`/`bufVal` is the
one-slot buffer, `buffered` the pushback flag, `tmax` the inclusive upper
bound, `tags` the encoded tagset of the iterator. -/
structure BufIter : Type where
  rem : List Pt
  bufKey : Int
  bufVal : Int
  buffered : Bool
  tmax : Int
  tags : String
deriving DecidableEq

/-- Model of `bufIterator.Next` (engine.go:484-500): take the buffered pair
or pull from the source, then stash it back and report the sentinel `0`
when `tmax != 0` and the key exceeds `tmax`. -/
def bufNext (i : BufIter) : Int × Int × BufIter :=
  let i1 :=
    if i.buffered then { i with buffered := false }
    else
      match i.rem with
      | p :: rest => { i with rem := rest, bufKey := p.ts, bufVal := p.val }
      | [] => { i with bufKey := 0, bufVal := 0 }
  if i1.tmax ≠ 0 ∧ i1.bufKey > i1.tmax then (0, 0, { i1 with buffered := true })
  else (i1.bufKey, i1.bufVal, i1)

/-- Model of `bufIterator.Peek` (engine.go:503-507): `Next` followed by
setting the pushback flag. -/
def bufPeek (i : BufIter) : Int × Int × BufIter :=
  let r := bufNext i
  (r.1, r.2.1, { r.2.2 with buffered := true })

/-- Model of `bufIterator.EOF` (engine.go:510): peek, then test whether the
buffer slot holds the sentinel key `0`. -/
def bufEOF (i : BufIter) : Bool × BufIter :=
  let r := bufPeek i
  (r.2.2.bufKey == 0, r.2.2)

/-- The iterator-consuming loop shared by every catalog map function
(`for k, _, v := itr.Next(); k != 0; k, _, v = itr.Next()`): repeatedly call
`bufNext` until it reports the sentinel `0`, collecting the points returned.
The fuel argument only makes the recursion structural; `rem.length + 2`
units always suffice. -/
def drain (fuel : Nat) (i : BufIter) : List Pt × BufIter :=
  match fuel with
  | 0 => ([], i)
  | fuel + 1 =>
      let r := bufNext i
      if r.1 = 0 then ([], r.2.2)
      else
        let rest := drain fuel r.2.2
        (⟨r.1, r.2.1⟩ :: rest.1, rest.2)

/-- Pending stream of a buffered iterator: the stashed point (when the
buffer is occupied by a real point and flagged) followed by the source's
remainder.  This is the sequence of points `bufIterator.Next` can still
deliver. -/
def pend (i : BufIter) : List Pt :=
  (if i.buffered ∧ i.bufKey ≠ 0 then [⟨i.bufKey, i.bufVal⟩] else []) ++ i.rem

/-- State invariant of the buffered iterator: a buffered sentinel key `0`
only ever occurs once the source is exhausted. -/
def Jinv (i : BufIter) : Prop := i.buffered = true → i.bufKey = 0 → i.rem = []

/-- Window-membership test of `bufIterator.Next`: a point passes through
unless a bound is set and the point's timestamp exceeds it. -/
def inWin (tmax : Int) (p : Pt) : Bool := decide ¬(tmax ≠ 0 ∧ tmax < p.ts)

/-- A map function in the model: consumes the buffered iterator for one
window whose start is the `Int` argument and produces one emission. -/
abbrev MapFn (α : Type) : Type := BufIter → Int → α × BufIter

/-- Instrumented map function recording the window start together with
every point the window's drain loop drew from the iterator.  This is the
common consumption pattern of all catalog map functions (MapCount, MapSum,
MapEcho, ...), with the emission replaced by the raw points so that claims
about "points seen by a MapFn" can be stated. -/
def MapDrawn : MapFn (Int × List Pt) := fun i tmin =>
  let r := drain (i.rem.length + 2) i
  ((tmin, r.1), r.2)

/-- Model of `MapCount` (engine.go:516-522): count the points drained from
the window and emit the pair of `Key (tmin, tags)` and `float64(n)`; the count is an exact
integer. -/
def MapCount : MapFn (GoKey × Int) := fun i tmin =>
  let r := drain (i.rem.length + 2) i
  ((⟨tmin, i.tags⟩, (r.1.length : Int)), r.2)

/-- Window loop of `Mapper.run` (engine.go:448-465): set
`tmax = tmin + interval - 1` when an interval is configured, stop when the
buffered iterator reports EOF, otherwise run the map function and advance
`tmin` by the interval.  The `Bool` in the result is `true` when the loop
exited via its EOF break and `false` when the fuel ran out. -/
def mapperRunAux {α : Type} (fn : MapFn α) (interval : Int) :
    Nat → Int → BufIter → List α × Bool × BufIter
  | 0, _, i => ([], false, i)
  | fuel + 1, tmin, i =>
      let i1 := if interval > 0 then { i with tmax := tmin + interval - 1 } else i
      let e := bufEOF i1
      if e.1 then ([], true, e.2)
      else
        let a := fn e.2 tmin
        let rest := mapperRunAux fn interval fuel (tmin + interval) a.2
        (a.1 :: rest.1, rest.2)

/-- Model of `Mapper.run` (engine.go:433-465): wrap the iterator, align the
first window start to the interval grid via
`tmin = peek().ts - (peek().ts % interval)` (Go `%` is truncated division,
`Int.tmod`), then run the window loop. -/
def mapperRun {α : Type} (fn : MapFn α) (fuel : Nat) (interval : Int)
    (pts : List Pt) (tags : String) : List α × Bool × BufIter :=
  let i0 : BufIter :=
    { rem := pts, bufKey := 0, bufVal := 0, buffered := false, tmax := 0, tags := tags }
  if interval > 0 then
    let r := bufPeek i0
    mapperRunAux fn interval fuel (r.1 - Int.tmod r.1 interval) r.2.2
  else
    mapperRunAux fn interval fuel 0 i0

/-- Model of `ReduceSum` (engine.go:685-691) on the exact-integer counts
that `MapCount` emits: sum the values for one key. -/
def ReduceSum (values : List Int) : Int := values.foldl (· + ·) 0

/-- What `ReduceStddev` emits for one key: nothing, the literal string
`"undefined"`, or `math.Sqrt` applied to the sample variance.  The square
root of a `float64` is determined by its argument, so it is represented
symbolically by the `sqrtOf` constructor carrying the exact variance. -/
inductive StddevEmit : Type
  | undefinedStr : StddevEmit
  | sqrtOf : Rat → StddevEmit
deriving DecidableEq

/-- Model of `ReduceStddev` (engine.go:867-900): concatenate the collected
batches, return without emitting on zero points, emit the string
`"undefined"` on one point, otherwise emit the square root of the variance
computed with the `n - 1` divisor.  The running-sum loops are modelled by
`foldl` exactly as the Go code accumulates. -/
def ReduceStddev (values : List (List Rat)) : Option StddevEmit :=
  let data := values.foldl (· ++ ·) []
  if data.length = 0 then none
  else if data.length = 1 then some .undefinedStr
  else
    let sum := data.foldl (· + ·) 0
    let mean := sum / (data.length : Rat)
    let variance := data.foldl (fun acc v => acc + (v - mean) ^ 2) 0
    some (.sqrtOf (variance / ((data.length : Rat) - 1)))

/-- Sample variance as the specification states it: mean via `sum/n`,
squared deviations, divisor `n - 1`. -/
def specSampleVariance (data : List Rat) : Rat :=
  ((data.map (fun v => (v - data.sum / (data.length : Rat)) ^ 2)).sum) /
    ((data.length : Rat) - 1)

/-- Specification-side restatement of the stddev reducer: flatten, no emit
for `n = 0`, the string `"undefined"` for `n = 1`, sample standard
deviation (variance divided by `n - 1`) otherwise. -/
def spec_ReduceStddev (values : List (List Rat)) : Option StddevEmit :=
  let data := values.flatten
  if data.length = 0 then none
  else if data.length = 1 then some .undefinedStr
  else some (.sqrtOf (specSampleVariance data))

/-- Result row as far as the final ordering is concerned
(engine.go:1249-1256): measurement name and tag map (association list). -/
structure GoRow : Type where
  name : String
  tags : List (String × String)

/-- One `Write` of a string into the FNV-1a 64-bit hash: fold the UTF-8
bytes with xor-then-multiply, reduced modulo `2 ^ 64` (Go `uint64`
wraparound). -/
def fnvWrite (h : Nat) (s : String) : Nat :=
  s.toUTF8.toList.foldl
    (fun h b => ((h ^^^ b.toNat) * 1099511628211) % (2 ^ 64)) h

/-- Model of `Row.tagsKeys` (engine.go:1270-1277), including its slip:
`make([]string, len(r.Tags))` pre-fills the slice with `len(Tags)` empty
strings and the keys are appended after them, then everything is sorted. -/
def tagsKeys (r : GoRow) : List String :=
  sortLe (fun a b => decide (a ≤ b))
    (List.replicate r.tags.length "" ++ r.tags.map (·.1))

/-- Model of `Row.tagsHash` (engine.go:1259-1267): FNV-1a 64 over each key
followed by its tag value, in `tagsKeys` order; a missing key hashes the
empty string, as a Go map lookup returns the zero value. -/
def tagsHash (r : GoRow) : Nat :=
  (tagsKeys r).foldl
    (fun h k => fnvWrite (fnvWrite h k) ((r.tags.lookup k).getD ""))
    14695981039346656037

/-- Comparator `Rows.Less` (engine.go:1284-1294): by name, then by tagset
hash. -/
def rowsLess (a b : GoRow) : Bool :=
  if a.name ≠ b.name then decide (a.name < b.name)
  else decide (tagsHash a < tagsHash b)

/-- Final stage of `Executor.execute` (engine.go:348-363): the accumulated
rows are sorted with `Rows.Less` and sent on the output channel in order.
The multiset of rows handed to the sort is universally quantified; the
channel stream equals the sorted list. -/
def executeSort (rows : List GoRow) : List GoRow :=
  sortLe (fun a b => !(rowsLess b a)) rows

/-- Byte strings: Go `string` / `[]byte` values are sequences of bytes. -/
abbrev Bstr : Type := List (Fin 256)

/-- Model of `MarshalStrings` (engine.go:1299-1310): each string becomes a
2-byte big-endian `uint16` length (`uint16(len(s))` truncates modulo
`2 ^ 16`) followed by its bytes, all concatenated. -/
def MarshalStrings : List Bstr → Bstr
  | [] => []
  | s :: rest =>
      let l := s.length % 65536
      (⟨l / 256, by omega⟩ : Fin 256) :: (⟨l % 256, by omega⟩ : Fin 256) ::
        (s ++ MarshalStrings rest)

/-- Model of `UnmarshalStrings` (engine.go:1313-1327): repeatedly read a
2-byte big-endian length and that many bytes until no bytes remain.
`none` models the Go slice-bounds panics on truncated input (`b[0:2]` with
one byte left, or `b[2:n+2]` past the end). -/
def UnmarshalStrings (b : Bstr) : Option (List Bstr) :=
  match b with
  | [] => some []
  | b0 :: b1 :: rest =>
      let n := b0.val * 256 + b1.val
      if n ≤ rest.length then
        match UnmarshalStrings (rest.drop n) with
        | some tail => some (rest.take n :: tail)
        | none => none
      else none
  | _ :: [] => none
termination_by b.length
decreasing_by simp [List.length_drop]; omega

/-- Expression arguments as `planCall` inspects them. -/
inductive PExpr : Type
  | varRef : String → PExpr
  | number : Int → PExpr
  | otherExpr : PExpr
deriving DecidableEq

/-- A function call in the select list. -/
structure PCall : Type where
  name : String
  args : List PExpr
deriving DecidableEq

/-- Every way `Planner.planCall` (engine.go:175-244) can leave: the errors
in source order, the index panic reachable in the percentile arm, and
success carrying the selected aggregate. -/
inductive PlanCallResult : Type
  | errTwoArgsPercentile : PlanCallResult
  | errOneArg : String → PlanCallResult
  | errFieldArg : String → PlanCallResult
  | errSubstatement : PlanCallResult
  | errCreateIterators : PlanCallResult
  | errFloatArg : PlanCallResult
  | errNotFound : String → PlanCallResult
  | panicIndex : PlanCallResult
  | planOk : String → PlanCallResult
deriving DecidableEq

/-- Model of `Planner.planCall` (engine.go:175-244).  Checks run in source
order: arity first (`percentile` wants two arguments, everything else one,
compared case-sensitively), then the first argument must be a variable
reference, then the substatement and iterator creation (external calls,
modelled by the two `Bool` oracles), and only then the lower-cased name is
looked up in the aggregate catalog. -/
def planCall (c : PCall) (substatementOk createIteratorsOk : Bool) : PlanCallResult :=
  if c.name = "percentile" then
    if c.args.length ≠ 2 then .errTwoArgsPercentile else planCallArg c substatementOk createIteratorsOk
  else if c.args.length ≠ 1 then .errOneArg c.name
  else planCallArg c substatementOk createIteratorsOk
where
  /-- Continuation of `planCall` after the arity check. -/
  planCallArg (c : PCall) (substatementOk createIteratorsOk : Bool) : PlanCallResult :=
    match c.args.head? with
    | some (.varRef _) =>
        if !substatementOk then .errSubstatement
        else if !createIteratorsOk then .errCreateIterators
        else
          match c.name.toLower with
          | "count" => .planOk "count"
          | "sum" => .planOk "sum"
          | "mean" => .planOk "mean"
          | "min" => .planOk "min"
          | "max" => .planOk "max"
          | "spread" => .planOk "spread"
          | "stddev" => .planOk "stddev"
          | "first" => .planOk "first"
          | "last" => .planOk "last"
          | "percentile" =>
              match c.args.get? 1 with
              | some (.number _) => .planOk "percentile"
              | some _ => .errFloatArg
              | none => .panicIndex
          | _ => .errNotFound c.name
    | _ => .errFieldArg c.name

/-! ## Generic facts about the insertion-sort model of `sort.Sort` -/

theorem mem_insertLe {α : Type} (le : α → α → Bool) (x : α) (l : List α) (a : α) :
    a ∈ insertLe le x l ↔ a = x ∨ a ∈ l := by
  induction l with
  | nil => simp [insertLe]
  | cons y ys ih =>
      by_cases h : le x y
      · simp [insertLe, h]
      · simp [insertLe, h, ih]
        tauto

theorem pairwise_insertLe {α : Type} (le : α → α → Bool)
    (total : ∀ a b, le a b ∨ le b a)
    (trans : ∀ a b c, le a b = true → le b c = true → le a c = true)
    (x : α) (l : List α) (hl : l.Pairwise (le · · = true)) :
    (insertLe le x l).Pairwise (le · · = true) := by
  induction l with
  | nil => simp [insertLe]
  | cons y ys ih =>
      rcases List.pairwise_cons.mp hl with ⟨hy, hys⟩
      by_cases h : le x y
      · rw [insertLe, if_pos h]
        refine List.pairwise_cons.mpr ⟨?_, hl⟩
        intro b hb
        rcases List.mem_cons.mp hb with hb | hb
        · subst hb; exact h
        · exact trans x y b h (hy b hb)
      · rw [insertLe, if_neg h]
        refine List.pairwise_cons.mpr ⟨?_, ih hys⟩
        intro b hb
        rcases (mem_insertLe le x ys b).mp hb with hb | hb
        · subst hb
          rcases total y b with h' | h'
          · exact h'
          · exact absurd h' h
        · exact hy b hb

theorem pairwise_sortLe {α : Type} (le : α → α → Bool)
    (total : ∀ a b, le a b ∨ le b a)
    (trans : ∀ a b c, le a b = true → le b c = true → le a c = true)
    (l : List α) : (sortLe le l).Pairwise (le · · = true) := by
  induction l with
  | nil => simp [sortLe]
  | cons x xs ih => exact pairwise_insertLe le total trans x (sortLe le xs) ih

/-! ## C1 and C6: binaryExprEvaluator -/

/-- Claim C1.  The claim states that a key present only in the left batch is
evaluated as `op(L[k], 0)`.  In the code, `rhs[k]` for a missing key yields
the interface zero value `nil` and `eval`'s type assertion
`rhs.(float64)` panics, so the merge step dies instead of substituting `0`
(first conjunct, the failing input `L = (Key 0 "") -> 1.0, R` empty).  When
every left key is present on the right, the merge does emit `op(L[k], R[k])`
followed by `op(0, R[k])` for right-only keys (second conjunct). -/
theorem binaryExprEvaluator_missing_rhs_panics :
    mergeBatches .ADD [(⟨0, ""⟩, .num 1)] [] =
      .error "interface conversion: interface is not float64" ∧
    mergeBatches .ADD [(⟨0, ""⟩, .num 1)]
        [(⟨0, ""⟩, .num 2), (⟨1, ""⟩, .num 5)] =
      .ok [(⟨0, ""⟩, .num 3), (⟨1, ""⟩, .num 5)] := by
  constructor
  · rfl
  · simp [mergeBatches, evalOp, asNum, List.foldlM, List.lookup, bind, Except.bind,
      pure, Except.pure]
    norm_num
    rfl

/-- Claim C6.  For the `DIV` operator, `eval` returns `0.0` whenever the
right operand equals zero, for every left operand (the zero test precedes
the left operand's type assertion), and division by zero never raises an
error. -/
theorem eval_div_by_zero_is_zero (lhs : Val) :
    evalOp .DIV lhs (.num 0) = .ok (.num 0) := rfl

/-! ## C2: ReducePercentile -/

/-- Claim C2.  On the in-range side, `percentile(v, 50)` over the values 1
through 10 emits exactly `5.0` (first conjunct, with an unsorted input to
exercise the sort).  On the out-of-range side the claim says exactly one
value, `0.0`, is emitted; the code emits `0.0` but then falls through to
`allValues[index]`, which panics with an index-out-of-range runtime error
(second conjunct, refuting the claim for empty input). -/
theorem reducePercentile_out_of_range_panics :
    ReducePercentile 50 [[3, 1, 2, 4, 5, 10, 9, 8, 7, 6]] = ([5], none) ∧
    ReducePercentile 50 [] = ([0], some "runtime error: index out of range") := by
  constructor
  · have hs : sortLe ratLe [(3 : Rat), 1, 2, 4, 5, 10, 9, 8, 7, 6]
        = [1, 2, 3, 4, 5, 6, 7, 8, 9, 10] := by decide
    have hi : percentileIndex 50 10 = 4 := by norm_num [percentileIndex]
    simp [ReducePercentile, hs, hi]
  · have hi : percentileIndex 50 0 = -1 := by norm_num [percentileIndex]
    simp [ReducePercentile, sortLe, hi]

/-! ## C3: Reducer merge order -/

/-- Claim C3 failing input.  Two mapper inputs, one whose only key has the
legitimate window-start timestamp `0` and one whose only key has timestamp
`1000000000`.  The merge loop's `timestamp == 0` uninitialized-value
sentinel makes the minimum computation skip the genuine `0` timestamp, so
the reducer emits the `1000000000` key in the first tick and the `0` key in
the second: the emitted key timestamps are `[1000000000, 0]`, which is not
strictly increasing across ticks as the claim requires. -/
theorem reducer_zero_timestamp_out_of_order :
    reducerRun 3 [[(⟨0, "a"⟩, 1)], [(⟨1000000000, "b"⟩, 1)]] =
      [[(⟨1000000000, "b"⟩, [1])], [(⟨0, "a"⟩, [1])]] ∧
    ((reducerRun 3 [[(⟨0, "a"⟩, 1)], [(⟨1000000000, "b"⟩, 1)]]).flatten.map
        (fun e => e.1.timestamp)) = [1000000000, 0] := by
  constructor
  · rfl
  · rfl

/-! ## C7: ReduceStddev -/

theorem foldl_append_eq_flatten {α : Type} (l : List (List α)) (acc : List α) :
    l.foldl (· ++ ·) acc = acc ++ l.flatten := by
  induction l generalizing acc with
  | nil => simp
  | cons x xs ih => simp [ih]

theorem foldl_add_eq_sum (l : List Rat) (init : Rat) :
    l.foldl (· + ·) init = init + l.sum := by
  induction l generalizing init with
  | nil => simp
  | cons x xs ih => simp [ih]; ring

theorem foldl_add_map_eq_sum (f : Rat → Rat) (l : List Rat) (init : Rat) :
    l.foldl (fun acc v => acc + f v) init = init + (l.map f).sum := by
  induction l generalizing init with
  | nil => simp
  | cons x xs ih => simp [ih]; ring

/-- Claim C7.  `ReduceStddev` emits nothing when the concatenated data is
empty, the literal string `"undefined"` when it holds exactly one value, and
otherwise the square root of the sample variance (divisor `n - 1`), exactly
as the specification states. -/
theorem reduceStddev_matches_spec (values : List (List Rat)) :
    ReduceStddev values = spec_ReduceStddev values := by
  unfold ReduceStddev spec_ReduceStddev
  simp only [foldl_append_eq_flatten, List.nil_append, foldl_add_eq_sum,
    foldl_add_map_eq_sum, zero_add]
  simp [specSampleVariance]

/-! ## C8: final row ordering -/

theorem rowsLess_false_iff (a b : GoRow) :
    (!(rowsLess b a)) = true ↔
      (a.name < b.name ∨ (a.name = b.name ∧ tagsHash a ≤ tagsHash b)) := by
  rw [Bool.not_eq_true', rowsLess]
  by_cases h : b.name = a.name
  · simp [h, eq_comm]
  · rw [if_pos (by simpa using h)]
    simp only [decide_eq_false_iff_not, not_lt]
    constructor
    · intro hle
      exact Or.inl (lt_of_le_of_ne hle (fun hc => h hc.symm))
    · rintro (hlt | ⟨heq, _⟩)
      · exact le_of_lt hlt
      · exact absurd heq.symm h

/-- Claim C8.  In the row stream sent by `Executor.execute`, rows are sorted
ascending by name and, within equal names, by tagset hash: for every pair of
output positions `i < j`, `name_i ≤ name_j`, and when the names are equal
the hash of row `i` is at most the hash of row `j`. -/
theorem execute_rows_sorted (rows : List GoRow) :
    (executeSort rows).Pairwise
      (fun a b => a.name ≤ b.name ∧ (a.name = b.name → tagsHash a ≤ tagsHash b)) := by
  have hp := pairwise_sortLe (fun a b : GoRow => !(rowsLess b a))
    (by
      intro a b
      by_cases h : a.name = b.name
      · rcases Nat.le_total (tagsHash a) (tagsHash b) with h' | h'
        · exact Or.inl ((rowsLess_false_iff a b).mpr (Or.inr ⟨h, h'⟩))
        · exact Or.inr ((rowsLess_false_iff b a).mpr (Or.inr ⟨h.symm, h'⟩))
      · rcases lt_or_gt_of_ne h with h' | h'
        · exact Or.inl ((rowsLess_false_iff a b).mpr (Or.inl h'))
        · exact Or.inr ((rowsLess_false_iff b a).mpr (Or.inl h')))
    (by
      intro a b c hab hbc
      rw [rowsLess_false_iff] at hab hbc ⊢
      rcases hab with h1 | ⟨h1, h1h⟩
      · rcases hbc with h2 | ⟨h2, _⟩
        · exact Or.inl (lt_trans h1 h2)
        · exact Or.inl (h2 ▸ h1)
      · rcases hbc with h2 | ⟨h2, h2h⟩
        · exact Or.inl (h1 ▸ h2)
        · exact Or.inr ⟨h1.trans h2, le_trans h1h h2h⟩)
    rows
  refine hp.imp ?_
  intro a b hab
  rcases (rowsLess_false_iff a b).mp hab with h | ⟨h, hh⟩
  · exact ⟨le_of_lt h, fun hc => absurd hc (ne_of_lt h)⟩
  · exact ⟨le_of_eq h, fun _ => hh⟩

/-! ## C9: MarshalStrings round trip -/

/-- Claim C9.  For every list of strings in which each string is shorter
than `2 ^ 16` bytes, decoding the marshalled bytes returns the original
list: each segment is a 2-byte big-endian length followed by that many
bytes, and decoding stops exactly at zero remaining bytes. -/
theorem marshal_unmarshal_roundtrip (a : List Bstr) (h : ∀ s ∈ a, s.length < 65536) :
    UnmarshalStrings (MarshalStrings a) = some a := by
  induction a with
  | nil => simp [MarshalStrings, UnmarshalStrings]
  | cons s rest ih =>
      have hs : s.length < 65536 := h s (by simp)
      have hrest : ∀ t ∈ rest, t.length < 65536 := fun t ht => h t (by simp [ht])
      have hn : (s.length % 65536) / 256 * 256 + (s.length % 65536) % 256 = s.length := by
        omega
      rw [MarshalStrings, UnmarshalStrings]
      simp only [hn]
      rw [if_pos (by simp)]
      rw [List.drop_left, List.take_left]
      rw [ih hrest]

theorem marshal_unmarshal_roundtrip_witness :
    (∀ s ∈ ([[1, 2, 3], [], [255, 0]] : List Bstr), s.length < 65536) ∧
      UnmarshalStrings (MarshalStrings [[1, 2, 3], [], [255, 0]]) =
        some [[1, 2, 3], [], [255, 0]] :=
  ⟨by decide, marshal_unmarshal_roundtrip _ (by decide)⟩

/-! ## C10: planCall check order -/

/-- Claim C10.  The argument-count check precedes the function-name lookup:
every call whose name is not `"percentile"` and whose argument list is not a
single element gets the arity error, whatever the name and the external
oracles; and the "function not found" error is only ever produced by a call
that passed the arity check and whose first argument is a variable
reference. -/
theorem planCall_arity_before_lookup :
    (∀ (c : PCall) (so io : Bool), c.name ≠ "percentile" → c.args.length ≠ 1 →
        planCall c so io = .errOneArg c.name) ∧
    (∀ (c : PCall) (so io : Bool) (n : String), planCall c so io = .errNotFound n →
        ((c.name = "percentile" → c.args.length = 2) ∧
         (c.name ≠ "percentile" → c.args.length = 1) ∧
         ∃ s, c.args.head? = some (.varRef s))) := by
  constructor
  · intro c so io h1 h2
    simp [planCall, h1, h2]
  · intro c so io n h
    rw [planCall] at h
    by_cases hp : c.name = "percentile"
    · rw [if_pos hp] at h
      by_cases h2 : c.args.length = 2
      · refine ⟨fun _ => h2, fun hc => absurd hp hc, ?_⟩
        rw [if_neg (by simp [h2])] at h
        unfold planCall.planCallArg at h
        split at h
        · exact ⟨_, by assumption⟩
        · simp at h
      · rw [if_pos (by simp [h2])] at h
        simp at h
    · rw [if_neg hp] at h
      by_cases h1 : c.args.length = 1
      · refine ⟨fun hc => absurd hc hp, fun _ => h1, ?_⟩
        rw [if_neg (by simp [h1])] at h
        unfold planCall.planCallArg at h
        split at h
        · exact ⟨_, by assumption⟩
        · simp at h
      · rw [if_pos (by simp [h1])] at h
        simp at h

theorem planCall_arity_before_lookup_witness :
    planCall ⟨"nosuch", []⟩ true true = .errOneArg "nosuch" :=
  planCall_arity_before_lookup.1 ⟨"nosuch", []⟩ true true (by decide) (by decide)


/-! ## C4 and C5: mapper windowing -/

theorem pend_length_le (i : BufIter) : (pend i).length ≤ i.rem.length + 1 := by
  unfold pend; split <;> simp

theorem bufNext_nil (i : BufIter) (hp : pend i = []) :
    (bufNext i).1 = 0 ∧ (bufNext i).2.2.bufKey = 0 ∧ (bufNext i).2.2.rem = [] ∧
      (bufNext i).2.2.tmax = i.tmax ∧ pend (bufNext i).2.2 = [] ∧ Jinv (bufNext i).2.2 := by
  have hrem : i.rem = [] := by
    unfold pend at hp
    rcases List.append_eq_nil.mp hp with ⟨_, h2⟩
    exact h2
  unfold bufNext
  rcases hb : i.buffered with _ | _
  · simp only [hb, Bool.false_eq_true, if_false, hrem]
    split <;> simp [pend, Jinv]
  · have hk : i.bufKey = 0 := by
      by_contra hk
      unfold pend at hp
      rw [if_pos ⟨hb, hk⟩] at hp
      simp at hp
    simp only [hb, if_true, hrem, hk]
    split <;> simp [pend, Jinv, hrem, hk]

theorem bufNext_cons (i : BufIter) (p : Pt) (rest : List Pt) (hJ : Jinv i)
    (hp : pend i = p :: rest) (hts : p.ts ≠ 0) :
    (bufNext i).2.2.tmax = i.tmax ∧ (bufNext i).2.2.bufKey = p.ts ∧
    (bufNext i).2.2.bufVal = p.val ∧ (bufNext i).2.2.rem = rest ∧ Jinv (bufNext i).2.2 ∧
    (if i.tmax ≠ 0 ∧ i.tmax < p.ts
     then (bufNext i).1 = 0 ∧ (bufNext i).2.2.buffered = true
     else (bufNext i).1 = p.ts ∧ (bufNext i).2.1 = p.val ∧
       (bufNext i).2.2.buffered = false) := by
  rcases hb : i.buffered with _ | _
  · have hrem : i.rem = p :: rest := by
      unfold pend at hp
      rw [if_neg (by simp [hb])] at hp
      simpa using hp
    unfold bufNext
    simp only [hb, Bool.false_eq_true, if_false, hrem]
    by_cases hcut : i.tmax ≠ 0 ∧ i.tmax < p.ts
    · rw [if_pos (by simpa using hcut)]
      simp [hcut, Jinv, hts]
    · rw [if_neg (by simpa using hcut)]
      simp [hcut, Jinv]
  · have hk : i.bufKey ≠ 0 := by
      intro hk
      have hrem : i.rem = [] := hJ hb hk
      unfold pend at hp
      rw [if_neg (by simp [hk])] at hp
      rw [hrem] at hp
      simp at hp
    have hfields : i.bufKey = p.ts ∧ i.bufVal = p.val ∧ i.rem = rest := by
      unfold pend at hp
      rw [if_pos ⟨hb, hk⟩] at hp
      simp at hp
      rcases hp with ⟨hp1, hp2⟩
      exact ⟨congrArg Pt.ts hp1, congrArg Pt.val hp1, hp2⟩
    rcases hfields with ⟨hk1, hv1, hrem⟩
    unfold bufNext
    simp only [hb, if_true, hk1, hv1, hrem]
    by_cases hcut : i.tmax ≠ 0 ∧ i.tmax < p.ts
    · rw [if_pos (by simpa using hcut)]
      simp [hcut, Jinv, hts]
    · rw [if_neg (by simpa using hcut)]
      simp [hcut, Jinv]

theorem bufPeek_nil (i : BufIter) (hp : pend i = []) :
    (bufPeek i).1 = 0 ∧ pend (bufPeek i).2.2 = [] ∧ Jinv (bufPeek i).2.2 ∧
      (bufPeek i).2.2.tmax = i.tmax ∧ (bufPeek i).2.2.bufKey = 0 := by
  obtain ⟨h1, h2, h3, h4, h5, h6⟩ := bufNext_nil i hp
  unfold bufPeek
  refine ⟨h1, ?_, ?_, h4, h2⟩
  · simp [pend, h2, h3]
  · intro _ _
    simpa using h3

theorem bufPeek_cons (i : BufIter) (p : Pt) (rest : List Pt) (hJ : Jinv i)
    (hp : pend i = p :: rest) (hts : p.ts ≠ 0) :
    pend (bufPeek i).2.2 = p :: rest ∧ Jinv (bufPeek i).2.2 ∧
      (bufPeek i).2.2.tmax = i.tmax ∧ (bufPeek i).2.2.bufKey = p.ts ∧
      (¬(i.tmax ≠ 0 ∧ i.tmax < p.ts) → (bufPeek i).1 = p.ts) := by
  obtain ⟨h1, h2, h3, h4, h5, h6⟩ := bufNext_cons i p rest hJ hp hts
  unfold bufPeek
  refine ⟨?_, ?_, h1, h2, ?_⟩
  · simp [pend, h2, h3, h4, hts]
  · intro _ hk
    rw [h2] at hk
    exact absurd hk hts
  · intro hcut
    rw [if_neg hcut] at h6
    exact h6.1

theorem bufEOF_nil (i : BufIter) (hp : pend i = []) :
    (bufEOF i).1 = true ∧ pend (bufEOF i).2 = [] ∧ Jinv (bufEOF i).2 ∧
      (bufEOF i).2.tmax = i.tmax := by
  obtain ⟨h1, h2, h3, h4, h5⟩ := bufPeek_nil i hp
  unfold bufEOF
  exact ⟨by simp [h5], h2, h3, h4⟩

theorem bufEOF_cons (i : BufIter) (p : Pt) (rest : List Pt) (hJ : Jinv i)
    (hp : pend i = p :: rest) (hts : p.ts ≠ 0) :
    (bufEOF i).1 = false ∧ pend (bufEOF i).2 = p :: rest ∧ Jinv (bufEOF i).2 ∧
      (bufEOF i).2.tmax = i.tmax := by
  obtain ⟨h1, h2, h3, h4, h5⟩ := bufPeek_cons i p rest hJ hp hts
  unfold bufEOF
  exact ⟨by simp [h4, hts], h1, h2, h3⟩

theorem drain_spec (l : List Pt) : ∀ (fuel : Nat) (i : BufIter), Jinv i → pend i = l →
    (∀ p ∈ l, p.ts ≠ 0) → l.length + 1 ≤ fuel →
    (drain fuel i).1 = l.takeWhile (inWin i.tmax) ∧
    pend (drain fuel i).2 = l.dropWhile (inWin i.tmax) ∧
    Jinv (drain fuel i).2 ∧ (drain fuel i).2.tmax = i.tmax := by
  induction l with
  | nil =>
      intro fuel i hJ hp hts hfuel
      match fuel, hfuel with
      | f + 1, _ =>
        obtain ⟨h1, h2, h3, h4, h5, h6⟩ := bufNext_nil i hp
        simp only [drain, h1, if_pos]
        exact ⟨by simp, by simp [h5], h6, h4⟩
  | cons p rest ih =>
      intro fuel i hJ hp hts hfuel
      match fuel, hfuel with
      | f + 1, hfuel =>
        have htsp : p.ts ≠ 0 := hts p (by simp)
        obtain ⟨h1, h2, h3, h4, h5, h6⟩ := bufNext_cons i p rest hJ hp htsp
        by_cases hcut : i.tmax ≠ 0 ∧ i.tmax < p.ts
        · rw [if_pos hcut] at h6
          have hwin : inWin i.tmax p = false := by
            simp only [inWin, decide_eq_false_iff_not, Decidable.not_not]
            exact hcut
          simp only [drain, h6.1, if_pos]
          refine ⟨by simp [List.takeWhile_cons, hwin], ?_, h5, h1⟩
          rw [List.dropWhile_cons_of_neg (by simp [hwin])]
          unfold pend
          rw [if_pos ⟨h6.2, by rw [h2]; exact htsp⟩]
          rw [h2, h3, h4]
          simp
        · rw [if_neg hcut] at h6
          have hwin : inWin i.tmax p = true := by
            simp only [inWin, decide_eq_true_eq]
            exact hcut
          have hpend2 : pend (bufNext i).2.2 = rest := by
            unfold pend
            rw [if_neg (by simp [h6.2.2])]
            simp [h4]
          obtain ⟨ih1, ih2, ih3, ih4⟩ := ih f (bufNext i).2.2 h5 hpend2
            (fun q hq => hts q (by simp [hq])) (by simpa using hfuel)
          have hne : ¬((bufNext i).1 = 0) := by
            rw [h6.1]; exact htsp
          simp only [drain, if_neg hne]
          rw [h6.1, h6.2.1]
          rw [h1] at ih1 ih2 ih4
          refine ⟨?_, ih2.trans ?_, ih3, ih4⟩
          · rw [List.takeWhile_cons_of_pos (by simp [hwin]), ih1]
          · rw [List.dropWhile_cons_of_pos (by simp [hwin])]


theorem takeWhile_length_add {α : Type} (q : α → Bool) (l : List α) :
    (l.takeWhile q).length + (l.dropWhile q).length = l.length := by
  rw [← List.length_append, List.takeWhile_append_dropWhile]

theorem pend_set_tmax (i : BufIter) (t : Int) :
    pend { i with tmax := t } = pend i := by
  simp [pend]

theorem jinv_set_tmax (i : BufIter) (t : Int) (h : Jinv i) :
    Jinv { i with tmax := t } := by
  simpa [Jinv] using h

theorem mapCount_inv (interval : Int) : ∀ (fuel : Nat) (tmin : Int) (i : BufIter),
    Jinv i → (∀ p ∈ pend i, p.ts ≠ 0) →
    (((mapperRunAux MapCount interval fuel tmin i).1.map (fun e => e.2)).sum
      + ((pend (mapperRunAux MapCount interval fuel tmin i).2.2).length : Int)
      = ((pend i).length : Int)) ∧
    ((mapperRunAux MapCount interval fuel tmin i).2.1 = true →
      pend (mapperRunAux MapCount interval fuel tmin i).2.2 = []) := by
  intro fuel
  induction fuel with
  | zero =>
      intro tmin i hJ hts
      simp [mapperRunAux]
  | succ f ihf =>
      intro tmin i hJ hts
      set i1 := if interval > 0 then { i with tmax := tmin + interval - 1 } else i with hi1
      have hpend1 : pend i1 = pend i := by
        rw [hi1]; split <;> simp [pend]
      have hJ1 : Jinv i1 := by
        rw [hi1]; split
        · exact jinv_set_tmax i _ hJ
        · exact hJ
      rcases hpl : pend i with _ | ⟨p, rest⟩
      · obtain ⟨e1, e2, e3, e4⟩ := bufEOF_nil i1 (by rw [hpend1, hpl])
        simp only [mapperRunAux, ← hi1, e1, if_pos]
        simp [e2, hpl]
      · have htsp : p.ts ≠ 0 := hts p (by rw [hpl]; simp)
        obtain ⟨e1, e2, e3, e4⟩ := bufEOF_cons i1 p rest hJ1 (by rw [hpend1, hpl])
          htsp
        have hfuel2 : (p :: rest).length + 1 ≤ (bufEOF i1).2.rem.length + 2 := by
          have := pend_length_le (bufEOF i1).2
          rw [e2] at this
          omega
        obtain ⟨d1, d2, d3, d4⟩ := drain_spec (p :: rest) ((bufEOF i1).2.rem.length + 2)
          (bufEOF i1).2 e3 e2 (fun q hq => hts q (by rw [hpl]; exact hq)) hfuel2
        have hMC2 : (MapCount (bufEOF i1).2 tmin).2
            = (drain ((bufEOF i1).2.rem.length + 2) (bufEOF i1).2).2 := rfl
        have hrec := ihf (tmin + interval) (MapCount (bufEOF i1).2 tmin).2 (by rw [hMC2]; exact d3)
          (fun q hq => hts q (by
            rw [hpl]
            rw [hMC2, d2] at hq
            exact (List.dropWhile_sublist _).subset hq))
        simp only [mapperRunAux, ← hi1, e1, Bool.false_eq_true, if_false]
        rcases hrec with ⟨hsum, hdone⟩
        constructor
        · simp only [List.map_cons, List.sum_cons]
          have hlen : (MapCount (bufEOF i1).2 tmin).1.2
              = (((p :: rest).takeWhile (inWin (bufEOF i1).2.tmax)).length : Int) := by
            simp [MapCount, d1]
          have hpend : pend (MapCount (bufEOF i1).2 tmin).2
              = (p :: rest).dropWhile (inWin (bufEOF i1).2.tmax) := by
            rw [hMC2, d2]
          rw [hpend] at hsum
          rw [hlen]
          have hlens := takeWhile_length_add (inWin (bufEOF i1).2.tmax) (p :: rest)
          omega
        · exact hdone

theorem dropWhile_inWin_lt (tmax : Int) (l : List Pt)
    (hsort : l.Pairwise (fun a b : Pt => a.ts ≤ b.ts)) :
    ∀ p ∈ l.dropWhile (inWin tmax), tmax < p.ts := by
  induction l with
  | nil => simp
  | cons x xs ih =>
      rcases List.pairwise_cons.mp hsort with ⟨hx, hxs⟩
      by_cases hw : inWin tmax x = true
      · rw [List.dropWhile_cons_of_pos hw]
        exact ih hxs
      · rw [List.dropWhile_cons_of_neg hw]
        have hcut : tmax ≠ 0 ∧ tmax < x.ts := by
          simpa [inWin] using hw
        intro p hp
        rcases List.mem_cons.mp hp with hp | hp
        · subst hp; exact hcut.2
        · exact lt_of_lt_of_le hcut.2 (hx p hp)

theorem mapDrawn_bounds (interval : Int) (hI : 0 < interval) :
    ∀ (fuel : Nat) (tmin : Int) (i : BufIter), Jinv i →
    (pend i).Pairwise (fun a b : Pt => a.ts ≤ b.ts) → (∀ p ∈ pend i, 0 < p.ts) →
    (∀ p ∈ pend i, tmin ≤ p.ts) → 0 < tmin + interval - 1 →
    ∀ w ∈ (mapperRunAux MapDrawn interval fuel tmin i).1, ∀ p ∈ w.2,
      w.1 ≤ p.ts ∧ p.ts ≤ w.1 + interval - 1 := by
  intro fuel
  induction fuel with
  | zero => intro tmin i _ _ _ _ _ w hw; simp [mapperRunAux] at hw
  | succ f ihf =>
      intro tmin i hJ hsort hpos hmin htmax
      set i1 : BufIter := { i with tmax := tmin + interval - 1 } with hi1
      have hif : (if interval > 0 then { i with tmax := tmin + interval - 1 } else i) = i1 := by
        rw [if_pos hI]
      have hpend1 : pend i1 = pend i := pend_set_tmax i _
      have hJ1 : Jinv i1 := jinv_set_tmax i _ hJ
      have htm : i1.tmax = tmin + interval - 1 := rfl
      rcases hpl : pend i with _ | ⟨p, rest⟩
      · obtain ⟨e1, e2, e3, e4⟩ := bufEOF_nil i1 (by rw [hpend1, hpl])
        intro w hw
        simp only [mapperRunAux, hif, e1, if_pos] at hw
        simp at hw
      · have htsp : p.ts ≠ 0 := by
          have := hpos p (by rw [hpl]; simp)
          omega
        obtain ⟨e1, e2, e3, e4⟩ := bufEOF_cons i1 p rest hJ1 (by rw [hpend1, hpl]) htsp
        rw [htm] at e4
        have hfuel2 : (p :: rest).length + 1 ≤ (bufEOF i1).2.rem.length + 2 := by
          have := pend_length_le (bufEOF i1).2
          rw [e2] at this
          omega
        obtain ⟨d1, d2, d3, d4⟩ := drain_spec (p :: rest) ((bufEOF i1).2.rem.length + 2)
          (bufEOF i1).2 e3 e2
          (fun q hq => by
            have := hpos q (by rw [hpl]; exact hq)
            omega) hfuel2
        rw [e4] at d1 d2 d4
        have hMD2 : (MapDrawn (bufEOF i1).2 tmin).2
            = (drain ((bufEOF i1).2.rem.length + 2) (bufEOF i1).2).2 := rfl
        have hMD1 : (MapDrawn (bufEOF i1).2 tmin).1
            = (tmin, (p :: rest).takeWhile (inWin (tmin + interval - 1))) := by
          simp [MapDrawn, d1]
        have hsub : ∀ q ∈ List.dropWhile (inWin (tmin + interval - 1)) (p :: rest),
            q ∈ pend i := by
          intro q hq
          rw [hpl]
          exact (List.dropWhile_sublist _).subset hq
        have hrec := ihf (tmin + interval) (MapDrawn (bufEOF i1).2 tmin).2
          (by rw [hMD2]; exact d3)
          (by
            rw [hMD2, d2]
            exact List.Pairwise.sublist (List.dropWhile_sublist _) (hpl ▸ hsort))
          (by
            rw [hMD2, d2]
            intro q hq
            exact hpos q (hsub q hq))
          (by
            rw [hMD2, d2]
            intro q hq
            have := dropWhile_inWin_lt (tmin + interval - 1) (p :: rest)
              (hpl ▸ hsort) q hq
            omega)
          (by omega)
        intro w hw
        simp only [mapperRunAux, hif, e1, Bool.false_eq_true, if_false] at hw
        rcases List.mem_cons.mp hw with hw | hw
        · subst hw
          rw [hMD1]
          intro q hq
          simp only at hq
          have hqmem : q ∈ p :: rest := (List.takeWhile_sublist _).subset hq
          constructor
          · exact hmin q (by rw [hpl]; exact hqmem)
          · have hwin := List.mem_takeWhile_imp hq
            have hnc : tmin + interval - 1 = 0 ∨ q.ts ≤ tmin + interval - 1 := by
              simpa [inWin] using hwin
            omega
        · exact hrec w hw

theorem foldl_add_eq_sum_int (l : List Int) (init : Int) :
    l.foldl (· + ·) init = init + l.sum := by
  induction l generalizing init with
  | nil => simp
  | cons x xs ih => simp [ih]; ring

theorem mapperRunAux_pend_nil {α : Type} (fn : MapFn α) (interval : Int)
    (fuel : Nat) (tmin : Int) (i : BufIter) (hp : pend i = []) :
    (mapperRunAux fn interval fuel tmin i).1 = [] := by
  match fuel with
  | 0 => simp [mapperRunAux]
  | f + 1 =>
      have hpend1 : pend (if interval > 0 then { i with tmax := tmin + interval - 1 } else i)
          = pend i := by split <;> simp [pend]
      obtain ⟨e1, _, _, _⟩ := bufEOF_nil _ (by rw [hpend1, hp])
      simp [mapperRunAux, e1]

theorem pend_init (pts : List Pt) (tags : String) :
    pend ⟨pts, 0, 0, false, 0, tags⟩ = pts := by
  simp [pend]

theorem jinv_init (pts : List Pt) (tags : String) :
    Jinv ⟨pts, 0, 0, false, 0, tags⟩ := by
  simp [Jinv]

/-- Claim C5.  Count identity: for every finite stream of points (nonzero
timestamps, per the iterator protocol) and any interval, once the mapper's
window loop has terminated (the fuel sufficed, signalled by the done flag),
composing `MapCount` over the stream's windows with `ReduceSum` over the
per-window counts yields exactly the number of points in the stream. -/
theorem count_identity (interval : Int) (fuel : Nat) (pts : List Pt) (tags : String)
    (hts : ∀ p ∈ pts, p.ts ≠ 0)
    (hdone : (mapperRun MapCount fuel interval pts tags).2.1 = true) :
    ReduceSum ((mapperRun MapCount fuel interval pts tags).1.map (fun e => e.2))
      = (pts.length : Int) := by
  rw [ReduceSum, foldl_add_eq_sum_int, zero_add]
  by_cases hI : interval > 0
  · rw [mapperRun] at hdone ⊢
    simp only [if_pos hI] at hdone ⊢
    rcases hp0 : pts with _ | ⟨p0, rest0⟩
    · subst hp0
      obtain ⟨r1, r2, r3, r4, r5⟩ :=
        bufPeek_nil ⟨[], 0, 0, false, 0, tags⟩ (pend_init [] tags)
      obtain ⟨hsum, hfin⟩ := mapCount_inv interval fuel
        ((bufPeek (⟨[], 0, 0, false, 0, tags⟩ : BufIter)).1 -
          Int.tmod (bufPeek (⟨[], 0, 0, false, 0, tags⟩ : BufIter)).1 interval)
        (bufPeek (⟨[], 0, 0, false, 0, tags⟩ : BufIter)).2.2 r3
        (by rw [r2]; intro q hq; simp at hq)
      rw [hfin hdone, r2] at hsum
      simpa using hsum
    · subst hp0
      have hts0 : p0.ts ≠ 0 := hts p0 (by simp)
      obtain ⟨r1, r2, r3, r4, r5⟩ := bufPeek_cons ⟨p0 :: rest0, 0, 0, false, 0, tags⟩
        p0 rest0 (jinv_init _ tags) (pend_init _ tags) hts0
      obtain ⟨hsum, hfin⟩ := mapCount_inv interval fuel
        ((bufPeek (⟨p0 :: rest0, 0, 0, false, 0, tags⟩ : BufIter)).1 -
          Int.tmod (bufPeek (⟨p0 :: rest0, 0, 0, false, 0, tags⟩ : BufIter)).1 interval)
        (bufPeek (⟨p0 :: rest0, 0, 0, false, 0, tags⟩ : BufIter)).2.2 r2
        (by rw [r1]; exact hts)
      rw [hfin hdone, r1] at hsum
      simpa using hsum
  · rw [mapperRun] at hdone ⊢
    simp only [if_neg hI] at hdone ⊢
    obtain ⟨hsum, hfin⟩ := mapCount_inv interval fuel 0
      (⟨pts, 0, 0, false, 0, tags⟩ : BufIter) (jinv_init pts tags)
      (by rw [pend_init]; exact hts)
    rw [hfin hdone, pend_init] at hsum
    simpa using hsum

/-- Claim C4, amended.  For every mapper with interval `I > 0` over an
iterator whose points have positive and nondecreasing timestamps, every
point drawn by a map-function invocation whose window start is `tmin`
satisfies `tmin ≤ ts ≤ tmin + I - 1`, with the first window start aligned as
`tmin = peek().ts - (peek().ts mod I)`.  (The positivity and ordering
hypotheses are forced by the counterexample below.) -/
theorem mapper_window_bounds (interval : Int) (fuel : Nat) (pts : List Pt) (tags : String)
    (hI : 0 < interval) (hsort : pts.Pairwise (fun a b : Pt => a.ts ≤ b.ts))
    (hpos : ∀ p ∈ pts, 0 < p.ts) :
    ∀ w ∈ (mapperRun MapDrawn fuel interval pts tags).1, ∀ p ∈ w.2,
      w.1 ≤ p.ts ∧ p.ts ≤ w.1 + interval - 1 := by
  rw [mapperRun]
  simp only [if_pos hI]
  rcases hp0 : pts with _ | ⟨p0, rest0⟩
  · subst hp0
    obtain ⟨r1, r2, r3, r4, r5⟩ :=
      bufPeek_nil ⟨[], 0, 0, false, 0, tags⟩ (pend_init [] tags)
    intro w hw
    rw [mapperRunAux_pend_nil _ _ _ _ _ r2] at hw
    simp at hw
  · subst hp0
    have hpos0 : 0 < p0.ts := hpos p0 (by simp)
    have hts0 : p0.ts ≠ 0 := by omega
    obtain ⟨r1, r2, r3, r4, r5⟩ := bufPeek_cons ⟨p0 :: rest0, 0, 0, false, 0, tags⟩
      p0 rest0 (jinv_init _ tags) (pend_init _ tags) hts0
    have hpk : (bufPeek (⟨p0 :: rest0, 0, 0, false, 0, tags⟩ : BufIter)).1 = p0.ts := by
      apply r5
      simp
    rw [hpk]
    have hm0 : 0 ≤ Int.tmod p0.ts interval := Int.tmod_nonneg _ (by omega)
    have hmlt : Int.tmod p0.ts interval < interval := Int.tmod_lt_of_pos _ hI
    apply mapDrawn_bounds interval hI fuel _ _ r2
    · rw [r1]
      exact hsort
    · rw [r1]
      exact hpos
    · rw [r1]
      intro q hq
      rcases List.mem_cons.mp hq with hq | hq
      · subst hq; omega
      · have := (List.pairwise_cons.mp hsort).1 q hq
        omega
    · omega

/-- Claim C4 counterexample.  As stated, the claim is false: a single point
with the valid nonzero timestamp `-5` and interval `10` is aligned to the
window start `tmin = -5 - ((-5) mod 10) = 0` (Go's truncated `%`), and the
drain loop then draws the point with `ts = -5 < tmin` inside that window. -/
theorem mapper_window_bounds_counterexample :
    ¬ (∀ w ∈ (mapperRun MapDrawn 2 10 [⟨-5, 0⟩] "t").1, ∀ p ∈ w.2,
        w.1 ≤ p.ts ∧ p.ts ≤ w.1 + 10 - 1) := by decide

theorem mapper_window_bounds_witness :
    ((0 : Int) < 10 ∧
      ([⟨5, 7⟩, ⟨25, 8⟩] : List Pt).Pairwise (fun a b : Pt => a.ts ≤ b.ts) ∧
      (∀ p ∈ ([⟨5, 7⟩, ⟨25, 8⟩] : List Pt), 0 < p.ts)) ∧
    (∀ w ∈ (mapperRun MapDrawn 4 10 [⟨5, 7⟩, ⟨25, 8⟩] "t").1, ∀ p ∈ w.2,
      w.1 ≤ p.ts ∧ p.ts ≤ w.1 + 10 - 1) :=
  ⟨⟨by decide, by decide, by decide⟩,
    mapper_window_bounds 10 4 [⟨5, 7⟩, ⟨25, 8⟩] "t" (by decide) (by decide) (by decide)⟩

theorem count_identity_witness :
    ((∀ p ∈ ([⟨1, 10⟩, ⟨2, 20⟩, ⟨1000000001, 30⟩] : List Pt), p.ts ≠ 0) ∧
      (mapperRun MapCount 4 1000000000 [⟨1, 10⟩, ⟨2, 20⟩, ⟨1000000001, 30⟩] "t").2.1 = true) ∧
    ReduceSum ((mapperRun MapCount 4 1000000000
        [⟨1, 10⟩, ⟨2, 20⟩, ⟨1000000001, 30⟩] "t").1.map (fun e => e.2)) = 3 :=
  ⟨⟨by decide, by decide⟩,
    count_identity 1000000000 4 [⟨1, 10⟩, ⟨2, 20⟩, ⟨1000000001, 30⟩] "t"
      (by decide) (by decide)⟩


end Engine
